import Mathlib

/-!
# Verification of the TSP genetic-algorithm program (`main.go`)

Shallow embedding of the Go program in `src/main.go`.  Randomness is made
explicit: every call to the global generator (`rand.Intn`, `rand.Float32`)
becomes an explicit input, so each random-consuming operation takes the
sequence of values the generator would have produced.  `rand.Float32`
values are modelled as rationals in `[0, 1)`; `float64` coordinates and
scores are modelled as real numbers (the coordinate type is a parameter
`γ`, instantiated at `ℝ` for the great-circle distance, and at decidable
types for concrete evaluation).

The loop `for r0 == r1 { r1 = rand.Intn(n) }` in `randRange` is modelled
by scanning the explicit draw list for the first value different from
`r0`; a `none` result means no finite prefix of draws terminates the
loop (for `n = 1` this holds for every draw list, i.e. the loop never
terminates).  Operations that transitively consume `randRange`
(`Mutate`, `makeChild`, `Crossover`, `Select`, `Evolve`) therefore
return `Option` results, `none` meaning the Go code would not have
terminated on those draws.
-/

namespace TSP

/-- `City` from `main.go`: a name and a latitude/longitude position.
The coordinate type `γ` is `float64` in Go; theorems about the distance
formula instantiate `γ := ℝ`. -/
structure City (γ : Type) where
  name : String
  lat : γ
  lon : γ
  deriving DecidableEq, Repr

/-- There are pi radians per 180 degrees (`piRads` in `main.go`). -/
noncomputable def piRads : ℝ := Real.pi / 180

/-- The radius of Earth in miles (`radiusEarth` in `main.go`). -/
def radiusEarth : ℝ := 3959

/-- Great circle distance algorithm (`distance` in `main.go`), with
`float64` arithmetic modelled over `ℝ`. -/
noncomputable def distance (c0 c1 : City ℝ) : ℝ :=
  let p0 := c0.lat * piRads
  let p1 := c1.lat * piRads
  let p2 := c1.lon * piRads - c0.lon * piRads
  let p3 := Real.sin p0 * Real.sin p1
  let p4 := Real.cos p0 * Real.cos p1 * Real.cos p2
  radiusEarth * Real.arccos (p3 + p4)

/-- The mutation probability `0.1` from `Tour.Mutate` (`rand.Float32()
<= 0.1`), as the exact rational 1/10 (in kernel-reducible form). -/
def pMutate : ℚ := mkRat 1 10

/-- The crossover probability `0.9` from `Tour.Crossover`
(`rand.Float32() <= 0.9`), as the exact rational 9/10 (in
kernel-reducible form). -/
def pCross : ℚ := mkRat 9 10

/-- The parallel assignment `l[i], l[j] = l[j], l[i]` used by `Shuffle`,
`Mutate` and Go's slice swap idiom.  In Go both indices are always in
range; out-of-range indices (unreachable) leave the list unchanged. -/
def listSwap {β : Type} (l : List β) (i j : ℕ) : List β :=
  if h : i < l.length ∧ j < l.length then
    (l.set i (l.get ⟨j, h.2⟩)).set j (l.get ⟨i, h.1⟩)
  else l

/-- The loop body of `Tour.Shuffle`: `for i := 0..n-1 { r := rand.Intn(n);
swap(i, r) }`, consuming one draw per iteration starting at index `i`. -/
def shuffleAux {β : Type} : List β → ℕ → List ℕ → List β
  | l, _, [] => l
  | l, i, r :: rs => shuffleAux (listSwap l i r) (i + 1) rs

/-- `Tour.Shuffle` from `main.go` with the `n` draws of `rand.Intn(n)`
made explicit (`draws` has length `n` when produced by the generator). -/
def shuffle {β : Type} (draws : List ℕ) (l : List β) : List β :=
  shuffleAux l 0 draws

/-- `Genotype.RandomTour`: copy the genes and shuffle the copy. -/
def randomTour {γ : Type} (genes : List (City γ)) (draws : List ℕ) : List (City γ) :=
  shuffle draws genes

/-- `randRange` from `main.go`: draw `r0`, then redraw `r1` until it
differs from `r0`, and return the pair in increasing order.  The draw
list is the explicit stream of `rand.Intn(n)` results; `none` means the
stream never breaks the `for r0 == r1` loop, i.e. the Go loop runs
forever on those draws.  `n` is kept as a parameter for documentation;
real draws satisfy `d < n`. -/
def randRange (n : ℕ) (draws : List ℕ) : Option (ℕ × ℕ) :=
  match draws with
  | [] => none
  | r0 :: rest => match rest.find? (fun x => x ≠ r0) with
    | none => none
    | some r1 => if r1 < r0 then some (r1, r0) else some (r0, r1)

/-- The in-place reversal loop of `Tour.Mutate`:
`for mn < mx { swap(mn, mx); mn, mx = mn+1, mx-1 }`. -/
def revLoop {β : Type} (l : List β) (mn mx : ℕ) : List β :=
  if mn < mx then revLoop (listSwap l mn mx) (mn + 1) (mx - 1) else l
  termination_by mx - mn
  decreasing_by omega

/-- `Tour.Mutate` from `main.go`: with the `rand.Float32()` draw `pm`
and the `randRange` draw stream `rr` explicit, reverse the sub-path
between the two drawn indices when `pm ≤ 0.1`.  `none` means the
embedded `randRange` loop would not terminate. -/
def mutate {γ : Type} (pm : ℚ) (rr : List ℕ) (path : List (City γ)) :
    Option (List (City γ)) :=
  if pm ≤ pMutate then
    match randRange path.length rr with
    | none => none
    | some (mn, mx) => some (revLoop path mn mx)
  else some path

/-- `Tour.Contains` from `main.go`: membership test by city name. -/
def containsCity {γ : Type} (path : List (City γ)) (city : City γ) : Bool :=
  path.any (fun c => c.name = city.name)

/-- The append loop of `makeChild`: for each city of `path2`, append it
to the child unless the child already contains (by name) a city with
that name. -/
def appendMissing {γ : Type} (child : List (City γ)) : List (City γ) → List (City γ)
  | [] => child
  | c :: cs => if containsCity child c then appendMissing child cs
               else appendMissing (child ++ [c]) cs

/-- `makeChild` from `main.go`: take the prefix `path1[:n]` (where
`n = rand.Intn(len(path1))` is the explicit draw `nd`), append the
cities of `path2` not already present, then `Mutate` the child with
draws `pm`, `rr`. -/
def makeChild {γ : Type} (nd : ℕ) (pm : ℚ) (rr : List ℕ)
    (path1 path2 : List (City γ)) : Option (List (City γ)) :=
  mutate pm rr (appendMissing (path1.take nd) path2)

/-- `Tour.Crossover` from `main.go` with the crossover probability kept
as a parameter `p` (the source hardcodes `p = 0.9`): if the
`rand.Float32()` draw `cd` satisfies `cd ≤ p`, produce the two
`makeChild` children, else produce no children. -/
def crossoverP {γ : Type} (p : ℚ) (cd : ℚ) (n1 : ℕ) (pm1 : ℚ) (rr1 : List ℕ)
    (n2 : ℕ) (pm2 : ℚ) (rr2 : List ℕ) (t t2 : List (City γ)) :
    Option (List (List (City γ))) :=
  if cd ≤ p then
    match makeChild n1 pm1 rr1 t t2, makeChild n2 pm2 rr2 t2 t with
    | some c1, some c2 => some [c1, c2]
    | _, _ => none
  else some []

/-- `Tour.Crossover` from `main.go` with its hardcoded probability 0.9. -/
def crossover {γ : Type} (cd : ℚ) (n1 : ℕ) (pm1 : ℚ) (rr1 : List ℕ)
    (n2 : ℕ) (pm2 : ℚ) (rr2 : List ℕ) (t t2 : List (City γ)) :
    Option (List (List (City γ))) :=
  crossoverP pCross cd n1 pm1 rr1 n2 pm2 rr2 t t2

/-- Placeholder city used as the (unreachable) default for index reads;
Go would panic instead of producing it. -/
def dummyCity {γ : Type} [Zero γ] : City γ := ⟨"", 0, 0⟩

section Score

variable {γ : Type} {α : Type} [LinearOrderedAddCommMonoid α] [Zero γ]

/-- `Tour.Score` from `main.go`: `n := len(path)-1;
score := distance(path[n], path[0]); for i < n { score += distance(path[i],
path[i+1]) }`.  The distance function `d` is a parameter (the program
uses `distance`); the empty path (a panic in Go) scores `0`. -/
def score (d : City γ → City γ → α) (path : List (City γ)) : α :=
  match path with
  | [] => 0
  | _ :: _ =>
    let n := path.length - 1
    d (path.getD n dummyCity) (path.getD 0 dummyCity) + ((List.range n).map
      (fun i => d (path.getD i dummyCity) (path.getD (i+1) dummyCity))).sum

end Score

/-- The random values consumed by one iteration of the `Evolve` loop,
in the order the Go code draws them: `Select`'s `randRange` stream, the
crossover `rand.Float32()` draw, the three draws of each `makeChild`
(`rand.Intn(len(path1))`, the mutation `rand.Float32()`, the mutation
`randRange` stream), and the two `rand.Intn(len(p.solutions))` slot
draws (one per child).  Fields unused on a given control path model
generator values that were simply never requested. -/
structure EvolveRand where
  sel : List ℕ
  cross : ℚ
  n1 : ℕ
  pm1 : ℚ
  rr1 : List ℕ
  n2 : ℕ
  pm2 : ℚ
  rr2 : List ℕ
  slot1 : ℕ
  slot2 : ℕ
  deriving Repr

section Evolution

variable {γ : Type} {α : Type} [LinearOrderedAddCommMonoid α] [Zero γ]

/-- The body of `Population.Best`'s scan: keep the current solution
when the candidate's score is not strictly smaller. -/
def bestAux (d : City γ → City γ → α) : List (City γ) → List (List (City γ)) → List (City γ)
  | b, [] => b
  | b, t :: ts => if score d t < score d b then bestAux d t ts else bestAux d b ts

/-- `Population.Best` from `main.go`: linear scan for the tour with the
lowest score, first-found on ties.  The empty population (a panic in
Go) returns the empty tour. -/
def best (d : City γ → City γ → α) (sols : List (List (City γ))) : List (City γ) :=
  match sols with
  | [] => []
  | s :: ss => bestAux d s ss

/-- `Population.Select` from `main.go`: `randRange(len(p.solutions))`
picks two distinct indices and the corresponding tours are returned. -/
def select (sols : List (List (City γ))) (draws : List ℕ) :
    Option (List (City γ) × List (City γ)) :=
  match randRange sols.length draws with
  | none => none
  | some (r1, r2) => some (sols.getD r1 [], sols.getD r2 [])

/-- The replacement step inside `Evolve`: place `child` at slot `i`
only if its score is `≤` the current occupant's score. -/
def placeChild (d : City γ → City γ → α) (sols : List (List (City γ)))
    (child : List (City γ)) (i : ℕ) : List (List (City γ)) :=
  if score d child ≤ score d (sols.getD i []) then sols.set i child else sols

/-- One iteration of the `Evolve` loop: select a parent pair, produce
the crossover children, and greedily place each child at its drawn
slot.  `none` propagates non-termination of an inner `randRange`. -/
def evolveStep (d : City γ → City γ → α) (sols : List (List (City γ)))
    (r : EvolveRand) : Option (List (List (City γ))) :=
  match select sols r.sel with
  | none => none
  | some (p0, p1) =>
    match crossover r.cross r.n1 r.pm1 r.rr1 r.n2 r.pm2 r.rr2 p0 p1 with
    | none => none
    | some children =>
      match children with
      | [] => some sols
      | [c1] => some (placeChild d sols c1 r.slot1)
      | c1 :: c2 :: _ =>
        some (placeChild d (placeChild d sols c1 r.slot1) c2 r.slot2)

/-- `Population.Evolve` from `main.go`: `offspring/2` iterations of the
selection/crossover/replacement loop; `rs` lists the random values of
each iteration (so `rs.length = offspring / 2`). -/
def evolve (d : City γ → City γ → α) (sols : List (List (City γ))) :
    List EvolveRand → Option (List (List (City γ)))
  | [] => some sols
  | r :: rs =>
    match evolveStep d sols r with
    | none => none
    | some s => evolve d s rs

end Evolution

section Collector

variable {γ : Type} {α : Type} [LinearOrderedAddCommMonoid α] [Zero γ]

/-- `math.MaxFloat64`, the initial best score of the collector loop in
`main` (the largest finite `float64`, serving as the "+infinity"
sentinel), as a real number. -/
noncomputable def maxFloat64 : ℝ := (2 - 2 ^ (-(52 : ℤ))) * 2 ^ (1023 : ℕ)

/-- One step of the collector loop in `main`: update the best score
only when the received tour scores strictly less. -/
def collectStep (d : City γ → City γ → α) (b : α) (t : List (City γ)) : α :=
  if score d t < b then score d t else b

/-- The successive values of `bestScore` in `main`'s collector loop,
starting from the initial value `init` (`math.MaxFloat64` in Go),
after each received tour. -/
def collectorBests (d : City γ → City γ → α) (init : α)
    (ts : List (List (City γ))) : List α :=
  ts.scanl (collectStep d) init

/-- The tours actually reported (printed) by `main`'s collector loop:
exactly those whose score strictly improves on the best seen so far. -/
def collectorReports (d : City γ → City γ → α) (b : α) :
    List (List (City γ)) → List (List (City γ))
  | [] => []
  | t :: ts =>
    if score d t < b then t :: collectorReports d (score d t) ts
    else collectorReports d b ts

end Collector

section Parsing

variable {γ : Type}

/-- `strings.Fields`: split around runs of whitespace, no empty
fields. -/
def fields (s : String) : List String :=
  (s.split Char.isWhitespace).filter (fun t => t ≠ "")

/-- `initCity` from `main.go`, with `strconv.ParseFloat` abstracted as
`pf : String → Option γ` (`none` models a parse error): require exactly
3 fields, trim the name, parse both coordinates. -/
def initCity (pf : String → Option γ) (fs : List String) : Except String (City γ) :=
  if fs.length = 3 then
    match pf (fs.getD 1 "") with
    | none => .error "invalid latitude"
    | some lat =>
      match pf (fs.getD 2 "") with
      | none => .error "invalid longitude"
      | some lon => .ok ⟨(fs.getD 0 "").trim, lat, lon⟩
  else .error "Invalid line format"

/-- The line loop of `Genotype.Init`: parse each line's fields with
`initCity`, stopping at the first error. -/
def loadLines (pf : String → Option γ) : List String → Except String (List (City γ))
  | [] => .ok []
  | l :: ls =>
    match initCity pf (fields l) with
    | .error e => .error e
    | .ok c =>
      match loadLines pf ls with
      | .error e => .error e
      | .ok cs => .ok (c :: cs)

/-- The lines of the raw file content as `Genotype.Init` sees them:
`strings.Split(strings.TrimSpace(content), "\n")`. -/
def linesOf (raw : String) : List String :=
  raw.trim.splitOn "\n"

/-- `Genotype.Init` from `main.go`: `source = none` models
`ioutil.ReadFile` failing (unopenable source); otherwise trim the
content, split into lines and parse each line into a `City`. -/
def genotypeInit (pf : String → Option γ) (source : Option String) :
    Except String (List (City γ)) :=
  match source with
  | none => .error "open failed"
  | some raw => loadLines pf (linesOf raw)

/-- A line is malformed exactly when it does not split into 3 fields or
one of its coordinate fields fails to parse. -/
def badLine (pf : String → Option γ) (l : String) : Prop :=
  (fields l).length ≠ 3 ∨ pf ((fields l).getD 1 "") = none ∨
    pf ((fields l).getD 2 "") = none

instance {δ : Type} (o : Option δ) : Decidable (o = none) :=
  decidable_of_iff (o.isNone = true) Option.isNone_iff_eq_none

instance (pf : String → Option γ) (l : String) : Decidable (badLine pf l) := by
  unfold badLine; infer_instance

end Parsing

/-! ## Permutation lemmas for the swap-based operators -/

section SwapPerm

variable {β : Type}

/-- Replacing the `k`-th element by `a` and putting the old element in
front is a permutation of putting `a` in front. -/
theorem cons_set_perm : ∀ (t : List β) (k : ℕ) (hk : k < t.length) (a : β),
    (t.get ⟨k, hk⟩ :: t.set k a).Perm (a :: t)
  | b :: s, 0, _, a => by
    simpa using List.Perm.swap a b s
  | b :: s, m + 1, hk, a => by
    have hm : m < s.length := by simpa using hk
    have ih := cons_set_perm s m hm a
    have e1 : ((b :: s).get ⟨m + 1, hk⟩ :: (b :: s).set (m + 1) a)
        = s.get ⟨m, hm⟩ :: b :: s.set m a := by simp
    rw [e1]
    exact (List.Perm.swap b _ _).trans ((ih.cons b).trans (List.Perm.swap a b s))

/-- The parallel-assignment swap of two in-range positions permutes the
list. -/
theorem set_set_perm : ∀ (l : List β) (i j : ℕ) (hi : i < l.length) (hj : j < l.length),
    ((l.set i (l.get ⟨j, hj⟩)).set j (l.get ⟨i, hi⟩)).Perm l
  | a :: t, 0, 0, _, _ => by simp
  | a :: t, 0, k + 1, hi, hj => by
    have hk : k < t.length := by simpa using hj
    have e1 : ((a :: t).set 0 ((a :: t).get ⟨k + 1, hj⟩)).set (k + 1) ((a :: t).get ⟨0, hi⟩)
        = t.get ⟨k, hk⟩ :: t.set k a := by simp
    rw [e1]
    exact cons_set_perm t k hk a
  | a :: t, m + 1, 0, hi, hj => by
    have hm : m < t.length := by simpa using hi
    have e1 : ((a :: t).set (m + 1) ((a :: t).get ⟨0, hj⟩)).set 0 ((a :: t).get ⟨m + 1, hi⟩)
        = t.get ⟨m, hm⟩ :: t.set m a := by simp
    rw [e1]
    exact cons_set_perm t m hm a
  | a :: t, m + 1, k + 1, hi, hj => by
    have ih := set_set_perm t m k (by simpa using hi) (by simpa using hj)
    simpa using ih.cons a

/-- `listSwap` always permutes the list. -/
theorem listSwap_perm (l : List β) (i j : ℕ) : (listSwap l i j).Perm l := by
  unfold listSwap
  split
  case isTrue h => exact set_set_perm l i j h.1 h.2
  case isFalse => exact List.Perm.refl l

/-- The `Shuffle` loop permutes the list, whatever draws it receives. -/
theorem shuffleAux_perm : ∀ (draws : List ℕ) (l : List β) (i : ℕ),
    (shuffleAux l i draws).Perm l
  | [], _, _ => List.Perm.refl _
  | r :: rs, l, i =>
    (shuffleAux_perm rs (listSwap l i r) (i + 1)).trans (listSwap_perm l i r)

/-- `Tour.Shuffle` permutes the path in place. -/
theorem shuffle_perm (draws : List ℕ) (l : List β) : (shuffle draws l).Perm l :=
  shuffleAux_perm draws l 0

/-- The reversal loop of `Mutate` permutes the list. -/
theorem revLoop_perm (l : List β) (mn mx : ℕ) : (revLoop l mn mx).Perm l := by
  rw [revLoop]
  split
  case isTrue h =>
    exact (revLoop_perm (listSwap l mn mx) (mn + 1) (mx - 1)).trans
      (listSwap_perm l mn mx)
  case isFalse => exact List.Perm.refl l
  termination_by mx - mn
  decreasing_by omega

/-- Whenever `Mutate` terminates, its result is a permutation of the
input path. -/
theorem mutate_perm {γ : Type} {pm : ℚ} {rr : List ℕ} {path t : List (City γ)}
    (h : mutate pm rr path = some t) : t.Perm path := by
  unfold mutate at h
  split at h
  · cases hr : randRange path.length rr with
    | none => rw [hr] at h; cases h
    | some p =>
      rw [hr] at h
      obtain ⟨mn, mx⟩ := p
      cases h
      exact revLoop_perm path mn mx
  · cases h
    exact List.Perm.refl path

end SwapPerm

/-! ## Validity of `makeChild` and `Crossover` children -/

section ChildPerm

variable {γ : Type}

/-- `Tour.Contains` holds exactly when the tour has a city of that
name. -/
theorem containsCity_iff (path : List (City γ)) (c : City γ) :
    containsCity path c = true ↔ c.name ∈ path.map City.name := by
  unfold containsCity
  rw [List.any_eq_true]
  constructor
  · rintro ⟨x, hx, he⟩
    exact List.mem_map.mpr ⟨x, hx, by simpa using he.symm⟩
  · intro h
    rcases List.mem_map.mp h with ⟨x, hx, he⟩
    exact ⟨x, hx, by simp [he]⟩

/-- The names of the child built by the append loop of `makeChild`: the
prefix's names followed by the second parent's names not already in the
prefix (assuming the second parent repeats no name). -/
theorem appendMissing_map_name : ∀ (p2 pre : List (City γ)),
    (p2.map City.name).Nodup →
    (appendMissing pre p2).map City.name =
      pre.map City.name ++
        (p2.map City.name).filter (fun x => decide (x ∉ pre.map City.name))
  | [], pre, _ => by simp [appendMissing]
  | c :: cs, pre, h => by
    rw [List.map_cons] at h
    have hc : c.name ∉ cs.map City.name := (List.nodup_cons.mp h).1
    have hcs : (cs.map City.name).Nodup := (List.nodup_cons.mp h).2
    rw [appendMissing, List.map_cons]
    by_cases hmem : c.name ∈ pre.map City.name
    · have hcont : containsCity pre c = true := (containsCity_iff pre c).mpr hmem
      rw [if_pos hcont, appendMissing_map_name cs pre hcs,
        List.filter_cons_of_neg (by simp [hmem])]
    · have hcont : ¬ containsCity pre c = true := fun hcont =>
        hmem ((containsCity_iff pre c).mp hcont)
      rw [if_neg hcont, appendMissing_map_name cs (pre ++ [c]) hcs]
      have hfilter : (cs.map City.name).filter
            (fun x => decide (x ∉ (pre ++ [c]).map City.name)) =
          (cs.map City.name).filter (fun x => decide (x ∉ pre.map City.name)) := by
        apply List.filter_congr
        intro x hx
        have hxc : ¬ x = c.name := fun he => hc (he ▸ hx)
        simp [hxc]
      rw [hfilter, List.filter_cons_of_pos (by simp [hmem]), List.map_append]
      simp

/-- A duplicate-free prefix of a duplicate-free list `B`, followed by
the elements of `B` not in the prefix, is a permutation of `B`. -/
theorem prefix_filter_perm {x : Type} [DecidableEq x] (pre B : List x)
    (hpre : pre.Nodup) (hB : B.Nodup) (hsub : ∀ a ∈ pre, a ∈ B) :
    (pre ++ B.filter (fun a => decide (a ∉ pre))).Perm B := by
  have hnodup : (pre ++ B.filter (fun a => decide (a ∉ pre))).Nodup := by
    rw [List.nodup_append]
    refine ⟨hpre, hB.filter _, ?_⟩
    intro a ha hmem
    have := (List.mem_filter.mp hmem).2
    simp at this
    exact this ha
  rw [List.perm_ext_iff_of_nodup hnodup hB]
  intro a
  constructor
  · intro ha
    rcases List.mem_append.mp ha with h | h
    · exact hsub a h
    · exact (List.mem_filter.mp h).1
  · intro ha
    by_cases hp : a ∈ pre
    · exact List.mem_append.mpr (Or.inl hp)
    · exact List.mem_append.mpr (Or.inr (List.mem_filter.mpr ⟨ha, by simpa using hp⟩))

/-- Whenever `makeChild` terminates and both parents' name multisets
are permutations of the duplicate-free genotype name list `G`, the
child's names are a permutation of `G` as well. -/
theorem makeChild_names_perm {G : List String} {p1 p2 c : List (City γ)}
    {nd : ℕ} {pm : ℚ} {rr : List ℕ}
    (hG : G.Nodup) (h1 : (p1.map City.name).Perm G) (h2 : (p2.map City.name).Perm G)
    (h : makeChild nd pm rr p1 p2 = some c) : (c.map City.name).Perm G := by
  unfold makeChild at h
  have hperm := (mutate_perm h).map City.name
  have h2nodup : (p2.map City.name).Nodup := h2.symm.nodup hG
  have hprenodup : ((p1.take nd).map City.name).Nodup := by
    rw [List.map_take]
    exact List.Nodup.sublist ((p1.map City.name).take_sublist nd) (h1.symm.nodup hG)
  have hsub : ∀ a ∈ (p1.take nd).map City.name, a ∈ p2.map City.name := by
    intro a ha
    rw [List.map_take] at ha
    have : a ∈ p1.map City.name := (p1.map City.name).take_subset nd ha
    exact h2.mem_iff.mpr (h1.mem_iff.mp this)
  have hbase := appendMissing_map_name p2 (p1.take nd) h2nodup
  rw [hbase] at hperm
  exact (hperm.trans (prefix_filter_perm _ _ hprenodup h2nodup hsub)).trans h2

/-- Whenever `Crossover` fires and terminates, each returned child's
names are a permutation of the genotype name list. -/
theorem crossover_names_perm {G : List String} {p1 p2 : List (City γ)}
    {cs : List (List (City γ))} {cd : ℚ} {n1 n2 : ℕ} {pm1 pm2 : ℚ} {rr1 rr2 : List ℕ}
    (hG : G.Nodup) (h1 : (p1.map City.name).Perm G) (h2 : (p2.map City.name).Perm G)
    (h : crossover cd n1 pm1 rr1 n2 pm2 rr2 p1 p2 = some cs) :
    ∀ c ∈ cs, (c.map City.name).Perm G := by
  unfold crossover crossoverP at h
  split at h
  · cases hc1 : makeChild n1 pm1 rr1 p1 p2 with
    | none => rw [hc1] at h; cases h
    | some c1 =>
      cases hc2 : makeChild n2 pm2 rr2 p2 p1 with
      | none => rw [hc1, hc2] at h; cases h
      | some c2 =>
        rw [hc1, hc2] at h
        cases h
        intro c hc
        rcases List.mem_cons.mp hc with rfl | hc
        · exact makeChild_names_perm hG h1 h2 hc1
        · rcases List.mem_cons.mp hc with rfl | hc
          · exact makeChild_names_perm hG h2 h1 hc2
          · cases hc
  · cases h
    intro c hc
    cases hc

end ChildPerm

/-! ## Greedy replacement in `Evolve` never worsens a slot -/

section EvolveMono

variable {γ : Type} {α : Type} [LinearOrderedAddCommMonoid α] [Zero γ]

/-- Replacing a slot never changes the number of solutions. -/
theorem placeChild_length (d : City γ → City γ → α) (sols : List (List (City γ)))
    (child : List (City γ)) (i : ℕ) :
    (placeChild d sols child i).length = sols.length := by
  unfold placeChild
  split <;> simp

/-- After a conditional replacement, every slot scores at most what it
scored before. -/
theorem placeChild_getD_le (d : City γ → City γ → α) (sols : List (List (City γ)))
    (child : List (City γ)) (i j : ℕ) :
    score d ((placeChild d sols child i).getD j []) ≤ score d (sols.getD j []) := by
  unfold placeChild
  split
  case isTrue h =>
    by_cases hij : i = j
    · subst hij
      by_cases hlen : i < sols.length
      · rw [List.getD_eq_getElem?_getD, List.getElem?_set_eq_of_lt child hlen]
        simpa [List.getD_eq_getElem?_getD] using h
      · rw [List.getD_eq_getElem?_getD, List.getD_eq_getElem?_getD,
          List.getElem?_eq_none (by simpa using Nat.le_of_not_lt hlen),
          List.getElem?_eq_none (Nat.le_of_not_lt hlen)]
    · rw [List.getD_eq_getElem?_getD, List.getElem?_set_ne hij,
        ← List.getD_eq_getElem?_getD]
  case isFalse => exact le_refl _

/-- One `Evolve` iteration preserves the population size and never
increases any slot's score. -/
theorem evolveStep_mono (d : City γ → City γ → α) {sols s : List (List (City γ))}
    {r : EvolveRand} (h : evolveStep d sols r = some s) :
    s.length = sols.length ∧
      ∀ j, score d (s.getD j []) ≤ score d (sols.getD j []) := by
  unfold evolveStep at h
  split at h
  · cases h
  · split at h
    · cases h
    · split at h
      · cases h
        exact ⟨rfl, fun _ => le_refl _⟩
      · cases h
        exact ⟨placeChild_length .., fun j => placeChild_getD_le ..⟩
      · cases h
        refine ⟨by rw [placeChild_length, placeChild_length], fun j => ?_⟩
        exact le_trans (placeChild_getD_le ..) (placeChild_getD_le ..)

/-- A whole `Evolve` call preserves the population size and never
increases any slot's score. -/
theorem evolve_mono (d : City γ → City γ → α) :
    ∀ {rs : List EvolveRand} {sols s : List (List (City γ))},
    evolve d sols rs = some s →
    s.length = sols.length ∧
      ∀ j, score d (s.getD j []) ≤ score d (sols.getD j []) := by
  intro rs
  induction rs with
  | nil =>
    intro sols s h
    cases h
    exact ⟨rfl, fun _ => le_refl _⟩
  | cons r rs ih =>
    intro sols s h
    unfold evolve at h
    cases hstep : evolveStep d sols r with
    | none => rw [hstep] at h; cases h
    | some s1 =>
      rw [hstep] at h
      obtain ⟨hlen1, hmono1⟩ := evolveStep_mono d hstep
      obtain ⟨hlen2, hmono2⟩ := ih h
      exact ⟨hlen2.trans hlen1, fun j => (hmono2 j).trans (hmono1 j)⟩

/-- The `Best` scan returns a solution whose score is a lower bound of
the scanned scores (including the running candidate's). -/
theorem bestAux_le (d : City γ → City γ → α) :
    ∀ (ts : List (List (City γ))) (b : List (City γ)),
    score d (bestAux d b ts) ≤ score d b ∧
      ∀ t ∈ ts, score d (bestAux d b ts) ≤ score d t := by
  intro ts
  induction ts with
  | nil => exact fun b => ⟨le_refl _, by simp⟩
  | cons t ts ih =>
    intro b
    rw [bestAux]
    split
    case isTrue hlt =>
      refine ⟨(ih t).1.trans hlt.le, fun u hu => ?_⟩
      rcases List.mem_cons.mp hu with rfl | hu
      · exact (ih u).1
      · exact (ih t).2 u hu
    case isFalse hge =>
      refine ⟨(ih b).1, fun u hu => ?_⟩
      rcases List.mem_cons.mp hu with rfl | hu
      · exact (ih b).1.trans (not_lt.mp hge)
      · exact (ih b).2 u hu

/-- The `Best` scan returns one of the scanned solutions. -/
theorem bestAux_mem (d : City γ → City γ → α) :
    ∀ (ts : List (List (City γ))) (b : List (City γ)),
    bestAux d b ts = b ∨ bestAux d b ts ∈ ts := by
  intro ts
  induction ts with
  | nil => exact fun b => Or.inl rfl
  | cons t ts ih =>
    intro b
    rw [bestAux]
    split
    · rcases ih t with h | h
      · exact Or.inr (by rw [h]; exact List.mem_cons_self t ts)
      · exact Or.inr (List.mem_cons_of_mem t h)
    · rcases ih b with h | h
      · exact Or.inl h
      · exact Or.inr (List.mem_cons_of_mem t h)

/-- `Population.Best` scores no more than any member of the
population. -/
theorem best_le (d : City γ → City γ → α) (sols : List (List (City γ)))
    (t : List (City γ)) (ht : t ∈ sols) : score d (best d sols) ≤ score d t := by
  cases sols with
  | nil => cases ht
  | cons s ss =>
    rcases List.mem_cons.mp ht with rfl | ht
    · exact (bestAux_le d ss t).1
    · exact (bestAux_le d ss s).2 t ht

/-- `Population.Best` is a member of the population. -/
theorem best_mem (d : City γ → City γ → α) (sols : List (List (City γ)))
    (h : sols ≠ []) : best d sols ∈ sols := by
  cases sols with
  | nil => exact absurd rfl h
  | cons s ss =>
    show bestAux d s ss ∈ s :: ss
    rcases bestAux_mem d ss s with hb | hb
    · rw [hb]; exact List.mem_cons_self s ss
    · exact List.mem_cons_of_mem s hb

end EvolveMono

/-! ## Collector lemmas and the closed-loop form of `Score` -/

section CollectorLemmas

variable {γ : Type} {α : Type} [LinearOrderedAddCommMonoid α] [Zero γ]

/-- A collector step never increases the best score. -/
theorem collectStep_le (d : City γ → City γ → α) (b : α) (t : List (City γ)) :
    collectStep d b t ≤ b := by
  unfold collectStep
  split
  case isTrue h => exact h.le
  case isFalse => exact le_refl b

theorem scanl_head {σ τ : Type} (f : σ → τ → σ) (b : σ) (l : List τ) :
    (List.scanl f b l).head? = some b := by
  cases l <;> simp [List.scanl]

/-- The successive best scores of the collector loop never increase. -/
theorem collectorBests_chain (d : City γ → City γ → α) :
    ∀ (ts : List (List (City γ))) (init : α),
    List.Chain' (fun a b => b ≤ a) (collectorBests d init ts)
  | [], init => by simp [collectorBests]
  | t :: ts, init => by
    rw [collectorBests, List.scanl]
    apply List.chain'_cons'.mpr
    refine ⟨fun y hy => ?_, collectorBests_chain d ts (collectStep d init t)⟩
    have : (List.scanl (collectStep d) (collectStep d init t) ts).head? =
        some (collectStep d init t) := scanl_head ..
    rw [this] at hy
    cases hy
    exact collectStep_le d init t

end CollectorLemmas

section ScoreSpec

variable {γ : Type} {α : Type} [LinearOrderedAddCommMonoid α] [Zero γ]

/-- The score as the specification describes it: the sum of the
distances between consecutive cities of the path, plus the distance
from the last city back to the first (the closed loop). -/
def scoreSpec (d : City γ → City γ → α) : List (City γ) → α
  | [] => 0
  | c :: rest =>
    (List.zipWith d (c :: rest) rest).sum +
      d ((c :: rest).getLast (List.cons_ne_nil c rest)) c

omit [LinearOrderedAddCommMonoid α] in
/-- The indexed pairwise sum of `Score` lists exactly the consecutive
pairs of the path. -/
theorem zipWith_tail_eq_range (d : City γ → City γ → α) : ∀ (path : List (City γ)),
    List.zipWith d path path.tail =
      (List.range (path.length - 1)).map
        (fun i => d (path.getD i dummyCity) (path.getD (i+1) dummyCity))
  | [] => by simp
  | [c] => by simp
  | c :: b :: rest => by
    have ih := zipWith_tail_eq_range d (b :: rest)
    simp only [List.tail_cons] at ih ⊢
    rw [show (c :: b :: rest).length - 1 = ((b :: rest).length - 1) + 1 from by simp,
      List.range_succ_eq_map, List.map_cons, List.map_map]
    simp only [List.zipWith_cons_cons]
    congr 1

/-- The last element of a non-empty list, as `Score` indexes it. -/
theorem getD_last_eq_getLast (l : List (City γ)) (h : l ≠ []) :
    l.getD (l.length - 1) dummyCity = l.getLast h := by
  rw [List.getLast_eq_getElem, List.getD_eq_getElem?_getD,
    List.getElem?_eq_getElem (by
      cases l with
      | nil => exact absurd rfl h
      | cons a t => simp)]
  rfl

/-- `Tour.Score` computes exactly the closed-loop sum the spec
describes. -/
theorem score_eq_scoreSpec (d : City γ → City γ → α) (path : List (City γ)) :
    score d path = scoreSpec d path := by
  cases path with
  | nil => rfl
  | cons c rest =>
    rw [score, scoreSpec, ← zipWith_tail_eq_range,
      show (c :: rest).getD 0 dummyCity = c from rfl,
      getD_last_eq_getLast (c :: rest) (List.cons_ne_nil c rest)]
    simp only [List.tail_cons]
    exact add_comm _ _

end ScoreSpec

/-! ## Distance-formula facts -/

section DistanceFacts

/-- The great-circle distance is symmetric (cosine is even). -/
theorem distance_symm (a b : City ℝ) : distance a b = distance b a := by
  simp only [distance]
  congr 1
  have h : a.lon * piRads - b.lon * piRads = -(b.lon * piRads - a.lon * piRads) := by
    ring
  rw [h, Real.cos_neg]
  ring_nf

/-- The distance from a city to itself is zero. -/
theorem distance_self (a : City ℝ) : distance a a = 0 := by
  simp only [distance, sub_self, Real.cos_zero, mul_one]
  have h : Real.sin (a.lat * piRads) * Real.sin (a.lat * piRads) +
      Real.cos (a.lat * piRads) * Real.cos (a.lat * piRads) = 1 := by
    have hs := Real.sin_sq_add_cos_sq (a.lat * piRads)
    nlinarith [hs]
  rw [h, Real.arccos_one, mul_zero]

/-- The great-circle distance is non-negative (`arccos` lands in
`[0, π]`, and the Earth radius is positive). -/
theorem distance_nonneg (a b : City ℝ) : 0 ≤ distance a b := by
  simp only [distance]
  exact mul_nonneg (by norm_num [radiusEarth]) (Real.arccos_nonneg _)

/-- If the distance function is non-negative, so is every score. -/
theorem score_nonneg {γ : Type} {α : Type} [LinearOrderedAddCommMonoid α] [Zero γ]
    (d : City γ → City γ → α) (hd : ∀ a b, 0 ≤ d a b) (path : List (City γ)) :
    0 ≤ score d path := by
  cases path with
  | nil => exact le_refl 0
  | cons c rest =>
    rw [score]
    refine add_nonneg (hd _ _) (List.sum_nonneg ?_)
    intro x hx
    rcases List.mem_map.mp hx with ⟨i, _, rfl⟩
    exact hd _ _

/-- A one-city tour scores zero under the program's distance. -/
theorem score_single (c : City ℝ) : score distance [c] = 0 := by
  simp [score, distance_self]

end DistanceFacts

/-! ## Error behaviour of `Genotype.Init` -/

section ParsingFacts

variable {γ : Type}

/-- `initCity` errors exactly on a wrong field count or an unparsable
coordinate. -/
theorem initCity_error_iff (pf : String → Option γ) (fs : List String) :
    (∃ e, initCity pf fs = .error e) ↔
      (fs.length ≠ 3 ∨ pf (fs.getD 1 "") = none ∨ pf (fs.getD 2 "") = none) := by
  unfold initCity
  by_cases h3 : fs.length = 3
  · rw [if_pos h3]
    cases h1 : pf (fs.getD 1 "") with
    | none => simp [h3, h1]
    | some lat =>
      cases h2 : pf (fs.getD 2 "") with
      | none => simp [h3, h2]
      | some lon => simp [h3, h1, h2]
  · rw [if_neg h3]
    simp [h3]

/-- The line loop errors exactly when some line is malformed. -/
theorem loadLines_error_iff (pf : String → Option γ) : ∀ (ls : List String),
    (∃ e, loadLines pf ls = .error e) ↔ ∃ l ∈ ls, badLine pf l
  | [] => by simp [loadLines]
  | l :: ls => by
    rw [loadLines]
    cases hc : initCity pf (fields l) with
    | error e =>
      have hbad : badLine pf l := by
        rw [badLine, ← initCity_error_iff]
        exact ⟨e, hc⟩
      simp only [List.mem_cons]
      exact iff_of_true ⟨e, rfl⟩ ⟨l, Or.inl rfl, hbad⟩
    | ok c =>
      have hgood : ¬ badLine pf l := by
        rw [badLine, ← initCity_error_iff]
        rintro ⟨e, he⟩
        rw [hc] at he
        cases he
      cases hl : loadLines pf ls with
      | error e =>
        have htail : ∃ x ∈ ls, badLine pf x := (loadLines_error_iff pf ls).mp ⟨e, hl⟩
        obtain ⟨x, hx, hbx⟩ := htail
        simp only [List.mem_cons]
        exact iff_of_true ⟨e, rfl⟩ ⟨x, Or.inr hx, hbx⟩
      | ok cs =>
        have htail : ¬ ∃ x ∈ ls, badLine pf x := by
          rw [← loadLines_error_iff pf ls]
          rintro ⟨e, he⟩
          rw [hl] at he
          cases he
        constructor
        · rintro ⟨e, he⟩
          cases he
        · rintro ⟨x, hx, hbx⟩
          rcases List.mem_cons.mp hx with rfl | hx
          · exact absurd hbx hgood
          · exact absurd ⟨x, hx, hbx⟩ htail

/-- When the line loop succeeds, it returns one parsed city per line,
in order. -/
theorem loadLines_ok_spec (pf : String → Option γ) : ∀ (ls : List String)
    (cs : List (City γ)), loadLines pf ls = .ok cs →
      cs.length = ls.length ∧ ∀ i (hi : i < ls.length) (hi' : i < cs.length),
        initCity pf (fields (ls.get ⟨i, hi⟩)) = .ok (cs.get ⟨i, hi'⟩)
  | [], cs => by
    rw [loadLines]
    rintro ⟨rfl⟩
    exact ⟨rfl, fun i hi => absurd hi (by simp)⟩
  | l :: ls, cs => by
    rw [loadLines]
    cases hc : initCity pf (fields l) with
    | error e => rintro ⟨⟩
    | ok c =>
      cases hl : loadLines pf ls with
      | error e => rintro ⟨⟩
      | ok cs' =>
        rintro ⟨rfl⟩
        obtain ⟨hlen, hidx⟩ := loadLines_ok_spec pf ls cs' hl
        refine ⟨by simp [hlen], fun i hi hi' => ?_⟩
        cases i with
        | zero => simpa using hc
        | succ m => simpa using hidx m (by simpa using hi) (by simpa using hi')

end ParsingFacts

/-! ## Concrete instances used to witness the claim theorems -/

/-- A concrete city over decidable (`ℕ`) coordinates. -/
def cityA : City ℕ := ⟨"a", 0, 0⟩

/-- A second concrete city, with a distinct name. -/
def cityB : City ℕ := ⟨"b", 1, 1⟩

/-- A computable stand-in distance for concrete evaluation: 0 between
same-named cities, 1 otherwise. -/
def dTest : City ℕ → City ℕ → ℕ :=
  fun c0 c1 => if c0.name = c1.name then 0 else 1

/-- All 27 possible draw sequences of `Shuffle` on a 3-element path:
each of the three `rand.Intn(3)` calls yields a value in `[0, 3)`,
uniformly and independently. -/
def allDraws3 : List (List ℕ) :=
  (List.range 3).flatMap fun a =>
    (List.range 3).flatMap fun b =>
      (List.range 3).map fun c => [a, b, c]

/-- How many of the 27 equally likely draw sequences make `Shuffle`
turn `[0, 1, 2]` into a given target arrangement. -/
def shuffleCount (target : List ℕ) : ℕ :=
  (allDraws3.filter (fun d => shuffle d [0, 1, 2] = target)).length

/-! ## Claim theorems -/

/-- C1: for every valid Genotype (non-empty, distinct city names) and
valid parent Tours, each Tour produced by `RandomTour`, by `Mutate` on
a valid Tour, or as a child of `Crossover` has a path whose name
multiset is a permutation of the Genotype's city names (no duplicates,
no omissions).  `Mutate` and `Crossover` results are conditioned on
termination of the embedded `randRange` loop. -/
theorem permutation_invariant {γ : Type} (genes p1 p2 t' : List (City γ))
    (cs : List (List (City γ))) (sdraws rr1 rr2 rr3 : List ℕ)
    (pm pm1 pm2 cd : ℚ) (n1 n2 : ℕ)
    (hne : genes ≠ []) (hnd : (genes.map City.name).Nodup)
    (hp1 : (p1.map City.name).Perm (genes.map City.name))
    (hp2 : (p2.map City.name).Perm (genes.map City.name)) :
    ((randomTour genes sdraws).map City.name).Perm (genes.map City.name) ∧
    (mutate pm rr1 p1 = some t' →
      (t'.map City.name).Perm (genes.map City.name)) ∧
    (crossover cd n1 pm1 rr2 n2 pm2 rr3 p1 p2 = some cs →
      ∀ x ∈ cs, (x.map City.name).Perm (genes.map City.name)) := by
  refine ⟨(shuffle_perm sdraws genes).map City.name, fun h => ?_, fun h => ?_⟩
  · exact ((mutate_perm h).map City.name).trans hp1
  · exact crossover_names_perm hnd hp1 hp2 h

/-- Witness for C1 at the two-city genotype `[a, b]`: the shuffled
tour, a mutated tour, and a crossover child all carry names permuting
`["a", "b"]`. -/
theorem permutation_invariant_witness :
    ((randomTour [cityA, cityB] [1, 0]).map City.name).Perm
      ([cityA, cityB].map City.name) ∧
    (([cityA, cityB] : List (City ℕ)).map City.name).Perm
      ([cityA, cityB].map City.name) ∧
    (([cityA, cityB] : List (City ℕ)).map City.name).Perm
      ([cityA, cityB].map City.name) := by
  have h := permutation_invariant (γ := ℕ) [cityA, cityB] [cityA, cityB]
    [cityB, cityA] [cityA, cityB] [[cityA, cityB], [cityB, cityA]]
    [1, 0] [] [] [] 1 1 1 0 1 1
    (by decide) (by decide) (List.Perm.refl _) (List.Perm.swap "a" "b" [])
  exact ⟨h.1, h.2.1 (by decide), h.2.2 (by decide) [cityA, cityB] (by decide)⟩

/-- C2: after one call to `Evolve`, the population keeps its size and
every slot's occupant scores at most what that slot's previous occupant
scored: a child only ever replaces an incumbent whose score is at least
the child's (the `child.Score() <= p.solutions[i].Score()` guard). -/
theorem evolve_greedy_replacement {γ : Type} {α : Type}
    [LinearOrderedAddCommMonoid α] [Zero γ] (d : City γ → City γ → α)
    (sols s : List (List (City γ))) (rs : List EvolveRand)
    (hne : ∀ t ∈ sols, t ≠ []) (h : evolve d sols rs = some s) :
    s.length = sols.length ∧
      ∀ j, score d (s.getD j []) ≤ score d (sols.getD j []) :=
  evolve_mono d h

/-- Witness for C2: a two-tour population evolved for one iteration
with concrete draws (crossover fires, both children placed). -/
theorem evolve_greedy_replacement_witness :
    ([[cityA, cityB], [cityB, cityA]] : List (List (City ℕ))).length =
      ([[cityA, cityB], [cityB, cityA]] : List (List (City ℕ))).length ∧
    score dTest (([[cityA, cityB], [cityB, cityA]] :
        List (List (City ℕ))).getD 0 []) ≤
      score dTest (([[cityA, cityB], [cityB, cityA]] :
        List (List (City ℕ))).getD 0 []) := by
  have h := evolve_greedy_replacement dTest [[cityA, cityB], [cityB, cityA]]
    [[cityA, cityB], [cityB, cityA]] [⟨[0, 1], 0, 1, 1, [], 1, 1, [], 0, 1⟩]
    (by decide) (by decide)
  exact ⟨h.1, h.2 0⟩

/-- C3: for a population of size 1, `Best` does return the single tour,
but `Evolve` does not terminate: `Select` calls `randRange(1)`, whose
redraw loop can never produce a second distinct index because every
`rand.Intn(1)` draw is 0 — so no draw stream (all values `< 1`) lets
one iteration of `Evolve` finish.  The claim that `Evolve` terminates
is violated by the code. -/
theorem size_one_best_ok_evolve_diverges {γ : Type} {α : Type}
    [LinearOrderedAddCommMonoid α] [Zero γ] (d : City γ → City γ → α)
    (t : List (City γ)) (r : EvolveRand) (h : ∀ x ∈ r.sel, x < 1) :
    best d [t] = t ∧ evolveStep d [t] r = none := by
  refine ⟨rfl, ?_⟩
  have hsel : select ([t] : List (List (City γ))) r.sel = none := by
    unfold select
    have hnone : randRange ([t] : List (List (City γ))).length r.sel = none := by
      unfold randRange
      cases hs : r.sel with
      | nil => rfl
      | cons r0 rest =>
        have hr0 : r0 = 0 := by
          have := h r0 (by rw [hs]; exact List.mem_cons_self r0 rest)
          omega
        have hfind : rest.find? (fun x => x ≠ r0) = none := by
          rw [List.find?_eq_none]
          intro x hx
          have hx0 : x = 0 := by
            have := h x (by rw [hs]; exact List.mem_cons_of_mem r0 hx)
            omega
          simp [hx0, hr0]
        show (match rest.find? (fun x => x ≠ r0) with
          | none => none
          | some r1 => if r1 < r0 then some (r1, r0) else some (r0, r1)) =
            (none : Option (ℕ × ℕ))
        rw [hfind]
    rw [hnone]
  unfold evolveStep
  rw [hsel]

/-- Witness for C3 at a concrete singleton population and draw stream
`[0, 0]` (the only values `rand.Intn(1)` can produce). -/
theorem size_one_best_ok_evolve_diverges_witness :
    best dTest [[cityA]] = [cityA] ∧
      evolveStep dTest [[cityA]] ⟨[0, 0], 1, 0, 1, [], 0, 1, [], 0, 0⟩ = none :=
  size_one_best_ok_evolve_diverges dTest [cityA]
    ⟨[0, 0], 1, 0, 1, [], 0, 1, [], 0, 0⟩ (by decide)

/-- C4 counterexample: `Shuffle` is not uniform.  On a 3-element path
the generator draws one of `3^3 = 27` equally likely draw sequences,
but 4 of them produce the arrangement `[0, 1, 2]` while 5 produce
`[0, 2, 1]` — a uniform permutation would require every arrangement to
be produced by the same number of draw sequences (27/6, which is not
even an integer). -/
theorem shuffle_not_uniform_counterexample :
    allDraws3.length = 27 ∧ shuffleCount [0, 1, 2] = 4 ∧
      shuffleCount [0, 2, 1] = 5 := by
  exact ⟨by decide, by decide, by decide⟩

/-- C4 (amended): `Shuffle` permutes the path in place — the result is
always a rearrangement of exactly the original cities — but the
permutation is not uniform over the generator's draws. -/
theorem shuffle_permutes_in_place {β : Type} (draws : List ℕ) (l : List β) :
    (shuffle draws l).Perm l :=
  shuffle_perm draws l

/-- C5: the collector's recorded best score starts at the sentinel
`math.MaxFloat64` (the code's stand-in for "+infinity"), never
increases, is updated only by a strictly smaller score, and a tour that
does not strictly improve the best is dropped without being reported. -/
theorem collector_monotonic {γ : Type} [Zero γ] (d : City γ → City γ → ℝ)
    (ts : List (List (City γ))) :
    (collectorBests d maxFloat64 ts).head? = some maxFloat64 ∧
    List.Chain' (fun a b => b ≤ a) (collectorBests d maxFloat64 ts) ∧
    (∀ (b : ℝ) (t : List (City γ)), collectStep d b t ≠ b →
      score d t < b ∧ collectStep d b t = score d t) ∧
    (∀ (b : ℝ) (t : List (City γ)) (rest : List (List (City γ))),
      ¬ score d t < b →
      collectStep d b t = b ∧
        collectorReports d b (t :: rest) = collectorReports d b rest) := by
  refine ⟨scanl_head .., collectorBests_chain d ts maxFloat64, ?_, ?_⟩
  · intro b t hne
    by_cases hlt : score d t < b
    · exact ⟨hlt, by simp [collectStep, hlt]⟩
    · exact absurd (by simp [collectStep, hlt]) hne
  · intro b t rest hlt
    exact ⟨by simp [collectStep, hlt], by simp [collectorReports, hlt]⟩

/-- C6: `Score` is the sum of the distances between consecutive cities
plus the distance from the last city back to the first; it is a pure
function of the path and the distance function (the embedding is
functional, so determinism and absence of side effects hold by
construction). -/
theorem score_closed_loop {γ : Type} {α : Type} [LinearOrderedAddCommMonoid α]
    [Zero γ] (d : City γ → City γ → α) (path : List (City γ))
    (hne : path ≠ []) : score d path = scoreSpec d path :=
  score_eq_scoreSpec d path

/-- Witness for C6 on a concrete two-city tour. -/
theorem score_closed_loop_witness :
    score dTest [cityA, cityB] = scoreSpec dTest [cityA, cityB] :=
  score_closed_loop dTest [cityA, cityB] (by decide)

/-- C7 (amended): whenever the drawn random value strictly exceeds the
crossover probability, `Crossover` returns an empty result — both for
the hardcoded probability 0.9 and for any forced probability `p`.
(The original claim's second half fails: with `p = 0`, a draw of
exactly 0 — which `rand.Float32()` can produce — still passes the
`<=` check and yields two children; see the counterexample.) -/
theorem crossover_prob_check {γ : Type} (p cd cd2 : ℚ) (n1 : ℕ) (pm1 : ℚ)
    (rr1 : List ℕ) (n2 : ℕ) (pm2 : ℚ) (rr2 : List ℕ) (t t2 : List (City γ))
    (h : p < cd) (h2 : pCross < cd2) :
    crossoverP p cd n1 pm1 rr1 n2 pm2 rr2 t t2 = some [] ∧
      crossover cd2 n1 pm1 rr1 n2 pm2 rr2 t t2 = some [] := by
  constructor
  · unfold crossoverP
    rw [if_neg (not_le.mpr h)]
  · unfold crossover crossoverP
    rw [if_neg (not_le.mpr h2)]

/-- Witness for C7 at concrete draws failing the probability check. -/
theorem crossover_prob_check_witness :
    crossoverP (0 : ℚ) 1 1 1 [] 1 1 [] [cityA] [cityA] = some [] ∧
      crossover (1 : ℚ) 1 1 [] 1 1 [] [cityA] [cityA] = some [] :=
  crossover_prob_check 0 1 1 1 1 [] 1 1 [] [cityA] [cityA]
    (by decide) (by decide)

/-- C7 counterexample: with the crossover probability forced to 0, the
draw 0 (a value `rand.Float32()` produces) satisfies the `<=` check, so
`Crossover` returns two children, not an empty result. -/
theorem crossover_zero_prob_counterexample :
    crossoverP (0 : ℚ) 0 1 1 [] 1 1 [] [cityA, cityB] [cityB, cityA] =
      some [[cityA, cityB], [cityB, cityA]] ∧
    crossoverP (0 : ℚ) 0 1 1 [] 1 1 [] [cityA, cityB] [cityB, cityA] ≠
      some [] := by
  exact ⟨by decide, by decide⟩

/-- C8: loading the genotype fails exactly when the source cannot be
opened, or some line does not split into exactly 3 whitespace-separated
fields, or a coordinate field fails to parse; on success each line
yields, in order, the `City` built by `initCity` from its fields (the
trimmed name and the two parsed coordinates). -/
theorem genotype_init_error_iff {γ : Type} (pf : String → Option γ)
    (source : Option String) :
    ((∃ e, genotypeInit pf source = .error e) ↔
      (source = none ∨
        ∃ raw, source = some raw ∧ ∃ l ∈ linesOf raw, badLine pf l)) ∧
    (∀ raw cs, genotypeInit pf (some raw) = .ok cs →
      cs.length = (linesOf raw).length ∧
        ∀ i (hi : i < (linesOf raw).length) (hi' : i < cs.length),
          initCity pf (fields ((linesOf raw).get ⟨i, hi⟩)) =
            .ok (cs.get ⟨i, hi'⟩)) := by
  constructor
  · cases source with
    | none => simp [genotypeInit]
    | some raw =>
      have he : genotypeInit pf (some raw) = loadLines pf (linesOf raw) := rfl
      rw [he, loadLines_error_iff]
      simp
  · intro raw cs h
    exact loadLines_ok_spec pf (linesOf raw) cs h

/-- C9: every score under the program's distance is non-negative, the
great-circle distance is symmetric, the distance from a city to itself
is 0, and a one-city tour scores 0. -/
theorem score_nonneg_distance_sym :
    (∀ path : List (City ℝ), 0 ≤ score distance path) ∧
    (∀ a b : City ℝ, distance a b = distance b a) ∧
    (∀ a : City ℝ, distance a a = 0) ∧
    (∀ c : City ℝ, score distance [c] = 0) :=
  ⟨score_nonneg distance distance_nonneg, distance_symm, distance_self,
    score_single⟩

/-- C10: one call to `Evolve` never increases the minimum score of the
population: the score of `Best` after `Evolve` is at most the score of
`Best` before. -/
theorem evolve_best_nonincreasing {γ : Type} {α : Type}
    [LinearOrderedAddCommMonoid α] [Zero γ] (d : City γ → City γ → α)
    (sols s : List (List (City γ))) (rs : List EvolveRand)
    (hsize : 2 ≤ sols.length) (hne : ∀ t ∈ sols, t ≠ [])
    (h : evolve d sols rs = some s) :
    score d (best d s) ≤ score d (best d sols) := by
  obtain ⟨hlen, hmono⟩ := evolve_mono d h
  have hne0 : sols ≠ [] := by
    intro he
    rw [he] at hsize
    simp at hsize
  obtain ⟨⟨j, hj⟩, hget⟩ := List.mem_iff_get.mp (best_mem d sols hne0)
  have hj2 : j < s.length := by omega
  have e1 : s.getD j [] = s.get ⟨j, hj2⟩ := by
    rw [List.getD_eq_getElem?_getD, List.getElem?_eq_getElem hj2]
    rfl
  have e2 : sols.getD j [] = sols.get ⟨j, hj⟩ := by
    rw [List.getD_eq_getElem?_getD, List.getElem?_eq_getElem hj]
    rfl
  have h1 : score d (best d s) ≤ score d (s.getD j []) := by
    rw [e1]
    exact best_le d s _ (s.get_mem j hj2)
  have h2 : score d (sols.getD j []) = score d (best d sols) := by
    rw [e2, hget]
  exact h1.trans ((hmono j).trans_eq h2)

/-- Witness for C10: the evolved two-tour population's best scores no
worse than the original's. -/
theorem evolve_best_nonincreasing_witness :
    score dTest (best dTest [[cityA, cityB], [cityB, cityA]]) ≤
      score dTest (best dTest [[cityA, cityB], [cityB, cityA]]) :=
  evolve_best_nonincreasing dTest [[cityA, cityB], [cityB, cityA]]
    [[cityA, cityB], [cityB, cityA]] [⟨[0, 1], 0, 1, 1, [], 1, 1, [], 0, 1⟩]
    (by decide) (by decide) (by decide)

end TSP
